import Mathlib

/-!
Verification of the SSE (Server-Sent-Events) re-assembler `streamQuery`
(`frontend/src/features/inspector/InspectorView.tsx`) and of the log-list
update `appendLog` (`frontend/src/App.tsx`).

The SSE loop is embedded at the level of decoded text: chunks are lists of
characters (the output of `TextDecoder.decode(value, {stream: true})`), the
buffer is a list of characters, and `JSON.parse` is an abstract parameter
`parse : List Char → Option J` (`none` models a thrown `SyntaxError`).
Callback invocations `onEvent(...)` are collected into a list of `SseEvent`
values, in invocation order.
-/

namespace SseModel

/-- JavaScript `s.startsWith(p)` on decoded text: `startsWith l p` is `true`
iff `p` is a prefix of `l`. -/
def startsWith : List Char → List Char → Bool
  | _, [] => true
  | [], _ :: _ => false
  | c :: cs, p :: ps => c = p && startsWith cs ps

/-- JavaScript `s.trim()`: remove leading and trailing whitespace. -/
def trimChars (l : List Char) : List Char :=
  ((l.dropWhile Char.isWhitespace).reverse.dropWhile Char.isWhitespace).reverse

/-- JavaScript `buffer.split('\n\n')`, written as a scan that returns the
first segment separately from the remaining segments (so the result is a
nonempty list by construction).  The scan is leftmost-first and
non-overlapping, exactly as `String.prototype.split` with a two-character
separator. -/
def splitAux : List Char → List Char × List (List Char)
  | [] => ([], [])
  | [c] => ([c], [])
  | c :: d :: rest =>
    if c = '\n' ∧ d = '\n' then
      ([], (splitAux rest).1 :: (splitAux rest).2)
    else
      (c :: (splitAux (d :: rest)).1, (splitAux (d :: rest)).2)

/-- Value of `s.split('\n\n')`, as a (nonempty) list of segments. -/
def splitNN (s : List Char) : List (List Char) :=
  (splitAux s).1 :: (splitAux s).2

/-- Events delivered to the `onEvent` callback. -/
inductive SseEvent (J : Type) where
  /-- an invocation `onEvent({ event, data: parsed })` for a successfully
  parsed payload. -/
  | ev (event : List Char) (data : J)
  /-- an invocation
  `onEvent({ event: 'error', data: { error: 'Failed to parse SSE data' } })`,
  made when `JSON.parse` throws on a data payload. -/
  | parseError
  /-- an invocation
  `onEvent({ event: 'error', data: { error: error.message } })`, made by the
  catch block for a stream error that is not an `AbortError`. -/
  | streamError (message : List Char)
  deriving DecidableEq, Repr

/-- Tag `'event: '`. -/
def eventTag : List Char := "event: ".toList

/-- Tag `'data: '`. -/
def dataTag : List Char := "data: ".toList

/-- Default event name `'message'`. -/
def messageWord : List Char := "message".toList

/-- The `for (const line of lines)` loop of `streamQuery`: starting from the
accumulator `(event, data)`, each line starting with `'event: '` overwrites
`event` with `line.slice(7).trim()`, else each line starting with `'data: '`
overwrites `data` with `line.slice(6).trim()`; other lines are ignored. -/
def scanLines : List (List Char) → List Char × List Char → List Char × List Char
  | [], acc => acc
  | l :: ls, (ev, da) =>
    if startsWith l eventTag then scanLines ls (trimChars (l.drop 7), da)
    else if startsWith l dataTag then scanLines ls (ev, trimChars (l.drop 6))
    else scanLines ls (ev, da)

/-- The body of `for (const message of messages)` in `streamQuery`: skip the
message when `message.trim()` is empty, otherwise split it into lines, run the
line loop with initial accumulator `('message', '')`, and when the resulting
`data` is nonempty emit one event: the parsed payload on success, the
parse-error event when `JSON.parse` throws. -/
def emitMessage {J : Type} (parse : List Char → Option J) (msg : List Char) :
    List (SseEvent J) :=
  if trimChars msg = [] then []
  else
    let acc := scanLines (List.splitOn '\n' msg) (messageWord, [])
    if acc.2 = [] then []
    else
      match parse acc.2 with
      | some j => [SseEvent.ev acc.1 j]
      | none => [SseEvent.parseError]

/-- One iteration of the read loop on a newly decoded chunk: append the chunk
to the buffer, split on `'\n\n'`, keep the last (incomplete) segment as the
new buffer (`messages.pop() || ''`), and emit the events of every complete
message in order. -/
def stepChunk {J : Type} (parse : List Char → Option J)
    (buffer chunk : List Char) : List Char × List (SseEvent J) :=
  let messages := splitNN (buffer ++ chunk)
  (messages.getLastD [], messages.dropLast.flatMap (emitMessage parse))

/-- The read loop over a sequence of chunks, threading the buffer; returns the
final buffer and the concatenated callback invocations. -/
def runStream {J : Type} (parse : List Char → Option J)
    (buffer : List Char) : List (List Char) → List Char × List (SseEvent J)
  | [] => (buffer, [])
  | c :: cs =>
    let step := stepChunk parse buffer c
    let rest := runStream parse step.1 cs
    (rest.1, step.2 ++ rest.2)

/-- Stream consumption of `streamQuery`, starting from the empty buffer
(`let buffer = ''`). -/
def streamQuery {J : Type} (parse : List Char → Option J)
    (chunks : List (List Char)) : List Char × List (SseEvent J) :=
  runStream parse [] chunks

/-- Possible outcomes of one `await reader.read()` call. -/
inductive ReadEvent where
  /-- a successful read `{ done: false, value }`: a decoded chunk of text. -/
  | chunk (s : List Char)
  /-- a final read `{ done: true }`: normal end of the response body. -/
  | done
  /-- a read rejecting with an `AbortError` (the abort signal fired). -/
  | abort
  /-- a read rejecting with an ordinary `Error` carrying `message`. -/
  | fail (message : List Char)
  deriving DecidableEq, Repr

/-- The full `while (true)` loop of `streamQuery` together with its
`try`/`catch`: chunks are processed through `stepChunk`; `done` breaks out of
the loop; a rejection is caught — when its name is `'AbortError'` it is
swallowed silently, otherwise `onEvent({event: 'error', data: {error:
error.message}})` is invoked; in no case does the loop rethrow or read
further. -/
def runLoop {J : Type} (parse : List Char → Option J)
    (buffer : List Char) : List ReadEvent → List (SseEvent J)
  | [] => []
  | ReadEvent.done :: _ => []
  | ReadEvent.abort :: _ => []
  | ReadEvent.fail m :: _ => [SseEvent.streamError m]
  | ReadEvent.chunk c :: rest =>
    (stepChunk parse buffer c).2 ++ runLoop parse (stepChunk parse buffer c).1 rest

/-- Specification-side description of the event name of a message: the last
line starting with `'event: '` decides it (its remainder, trimmed), and it
defaults to `'message'`. -/
def specEventName (msg : List Char) : List Char :=
  match ((List.splitOn '\n' msg).filter (fun l => startsWith l eventTag)).getLast? with
  | some l => trimChars (l.drop 7)
  | none => messageWord

/-- Specification-side description of the data payload of a message: the last
line starting with `'data: '` decides it (its remainder, trimmed), and it
defaults to the empty payload. -/
def specDataPayload (msg : List Char) : List Char :=
  match ((List.splitOn '\n' msg).filter (fun l => startsWith l dataTag)).getLast? with
  | some l => trimChars (l.drop 6)
  | none => []

/-- Specification-side description of the events of one message, built from
`specEventName` and `specDataPayload`. -/
def specEmit {J : Type} (parse : List Char → Option J) (msg : List Char) :
    List (SseEvent J) :=
  if trimChars msg = [] then []
  else if specDataPayload msg = [] then []
  else
    match parse (specDataPayload msg) with
    | some j => [SseEvent.ev (specEventName msg) j]
    | none => [SseEvent.parseError]

/-- A concrete stand-in for `JSON.parse` used by the witnesses: accepts
exactly the payload `'1'`. -/
def demoParse : List Char → Option Nat := fun l => if l = ['1'] then some 1 else none

end SseModel

namespace LogModel

/-- One entry of the UI log list (`LogEntry` in `App.tsx`); the `id` is a
concatenation of `Date.now()` and a random suffix, the timestamp a `Date`,
here abstracted to a number. -/
structure LogEntry where
  id : String
  source : String
  message : String
  timestamp : Nat
  deriving DecidableEq, Repr

/-- The `setLogs` updater inside `appendLog`: append the new entry, and when
the list exceeds 300 entries keep only the last 300 (`next.slice(-300)`). -/
def appendLogUpdate (prev : List LogEntry) (entry : LogEntry) : List LogEntry :=
  let next := prev ++ [entry]
  if next.length > 300 then next.drop (next.length - 300) else next

end LogModel

namespace SseModel

lemma splitAux_sep (rest : List Char) :
    splitAux ('\n' :: '\n' :: rest) = ([], (splitAux rest).1 :: (splitAux rest).2) := by
  simp [splitAux]

lemma splitAux_nosep {c d : Char} (rest : List Char) (h : ¬(c = '\n' ∧ d = '\n')) :
    splitAux (c :: d :: rest) = (c :: (splitAux (d :: rest)).1, (splitAux (d :: rest)).2) := by
  simp [splitAux, h]

lemma splitAux_flat : ∀ {s : List Char}, (splitAux s).2 = [] → (splitAux s).1 = s := by
  intro s
  induction s using splitAux.induct with
  | case1 => intro; rfl
  | case2 c => intro; rfl
  | case3 c d rest hcd ih =>
    obtain ⟨rfl, rfl⟩ := hcd
    rw [splitAux_sep]
    intro h
    simp at h
  | case4 c d rest hcd ih =>
    rw [splitAux_nosep rest hcd]
    intro h
    simp only at h
    simp only [ih h]

lemma splitNN_ne_nil (s : List Char) : splitNN s ≠ [] := by
  simp [splitNN]

lemma splitNN_sep (rest : List Char) :
    splitNN ('\n' :: '\n' :: rest) = [] :: splitNN rest := by
  simp [splitNN, splitAux_sep]

lemma splitNN_nosep {c d : Char} (rest : List Char) (h : ¬(c = '\n' ∧ d = '\n')) :
    splitNN (c :: d :: rest) = (c :: (splitAux (d :: rest)).1) :: (splitAux (d :: rest)).2 := by
  simp [splitNN, splitAux_nosep rest h]

lemma splitNN_flat {s : List Char} (h : (splitAux s).2 = []) : splitNN s = [s] := by
  simp [splitNN, h, splitAux_flat h]

/-- Splitting a concatenation: the complete segments of `a` are unchanged, and
the remaining segments are the split of the last segment of `a` glued to `b`
(a separator occurrence may straddle the boundary). -/
theorem splitNN_append (a b : List Char) :
    splitNN (a ++ b) = (splitNN a).dropLast ++ splitNN ((splitNN a).getLastD [] ++ b) := by
  induction a using splitAux.induct with
  | case1 =>
    simp [splitNN, splitAux]
  | case2 c =>
    simp [splitNN, splitAux]
  | case3 c d rest hcd ih =>
    obtain ⟨rfl, rfl⟩ := hcd
    rw [List.cons_append, List.cons_append, splitNN_sep, splitNN_sep, ih]
    cases hs : splitNN rest with
    | nil => exact absurd hs (splitNN_ne_nil rest)
    | cons f r =>
      cases r with
      | nil => simp
      | cons r1 r2 => simp [List.dropLast_cons₂, List.getLastD_cons]
  | case4 c d rest hcd ih =>
    simp only [List.cons_append] at ih ⊢
    rw [splitNN_nosep (rest ++ b) hcd, splitNN_nosep rest hcd]
    rcases hr : (splitAux (d :: rest)).2 with _ | ⟨r1, r2⟩
    · have hflat : (splitAux (d :: rest)).1 = d :: rest := splitAux_flat hr
      rw [hflat]
      simp [splitNN_nosep (rest ++ b) hcd]
    · simp only [splitNN, hr] at ih
      simp only [List.dropLast_cons₂, List.getLastD_cons, List.cons_append] at ih
      rw [List.cons.injEq] at ih
      simp only [splitNN, List.dropLast_cons₂, List.getLastD_cons, List.cons_append,
        ih.1, ih.2]

/-- The split really is a split on `'\n\n'`: interleaving the separator back
between the segments restores the original text. -/
theorem intercalate_splitNN (s : List Char) :
    List.intercalate ['\n', '\n'] (splitNN s) = s := by
  induction s using splitAux.induct with
  | case1 => rfl
  | case2 c => rfl
  | case3 c d rest hcd ih =>
    obtain ⟨rfl, rfl⟩ := hcd
    rw [splitNN_sep]
    cases hs : splitNN rest with
    | nil => exact absurd hs (splitNN_ne_nil rest)
    | cons f r =>
      rw [hs] at ih
      simp [List.intercalate, List.intersperse] at ih ⊢
      simp [ih]
  | case4 c d rest hcd ih =>
    rw [splitNN_nosep rest hcd]
    rcases hr : (splitAux (d :: rest)).2 with _ | ⟨r1, r2⟩
    · have hflat : (splitAux (d :: rest)).1 = d :: rest := splitAux_flat hr
      rw [hflat]
      simp [List.intercalate, List.intersperse]
    · rw [splitNN, hr] at ih
      simp [List.intercalate, List.intersperse] at ih ⊢
      simp [ih]

/-- The last (buffered) segment of a split contains no separator: splitting it
again is the identity. -/
lemma splitAux_getLastD : ∀ s : List Char, (splitAux ((splitNN s).getLastD [])).2 = [] := by
  intro s
  induction s using splitAux.induct with
  | case1 => rfl
  | case2 c => rfl
  | case3 c d rest hcd ih =>
    obtain ⟨rfl, rfl⟩ := hcd
    rw [splitNN_sep, List.getLastD_cons]
    cases hs : splitNN rest with
    | nil => exact absurd hs (splitNN_ne_nil rest)
    | cons f r =>
      rw [hs] at ih
      simpa [List.getLastD_eq_getLast?] using ih
  | case4 c d rest hcd ih =>
    rw [splitNN_nosep rest hcd]
    rcases hr : (splitAux (d :: rest)).2 with _ | ⟨r1, r2⟩
    · have hflat : (splitAux (d :: rest)).1 = d :: rest := splitAux_flat hr
      rw [hflat]
      simp [splitAux_nosep rest hcd, hr]
    · rw [splitNN, hr] at ih
      simpa [List.getLastD_cons] using ih

/-- Value of `getLastD` on an append with a nonempty right part. -/
lemma getLastD_append_cons {α : Type} (l1 : List α) (f : α) (r : List α) (d : α) :
    (l1 ++ f :: r).getLastD d = (f :: r).getLastD d := by
  rw [List.getLastD_eq_getLast?, List.getLastD_eq_getLast?,
    List.getLast?_append_of_ne_nil l1 (List.cons_ne_nil f r)]

/-- Chunked consumption equals one-shot consumption: starting from a
separator-free buffer, running the read loop over any chunk sequence yields
the buffer and events of the split of the full concatenation. -/
theorem runStream_flatten {J : Type} (parse : List Char → Option J) :
    ∀ (chunks : List (List Char)) (buf : List Char), (splitAux buf).2 = [] →
    runStream parse buf chunks
      = ((splitNN (buf ++ chunks.flatten)).getLastD [],
         ((splitNN (buf ++ chunks.flatten)).dropLast).flatMap (emitMessage parse)) := by
  intro chunks
  induction chunks with
  | nil =>
    intro buf h
    simp [runStream, splitNN_flat h]
  | cons c cs ih =>
    intro buf h
    have hb1 : (splitAux ((splitNN (buf ++ c)).getLastD [])).2 = [] := splitAux_getLastD _
    have hsplit : splitNN (buf ++ (c :: cs).flatten)
        = (splitNN (buf ++ c)).dropLast
          ++ splitNN ((splitNN (buf ++ c)).getLastD [] ++ cs.flatten) := by
      rw [List.flatten_cons, ← List.append_assoc, splitNN_append (buf ++ c) cs.flatten]
    simp only [runStream, stepChunk, ih _ hb1, hsplit]
    cases hs : splitNN ((splitNN (buf ++ c)).getLastD [] ++ cs.flatten) with
    | nil => exact absurd hs (splitNN_ne_nil _)
    | cons f r =>
      rw [getLastD_append_cons, List.dropLast_append_of_ne_nil _ (List.cons_ne_nil f r),
        List.flatMap_append]

lemma eventTag_eq : eventTag = ['e', 'v', 'e', 'n', 't', ':', ' '] := rfl

lemma dataTag_eq : dataTag = ['d', 'a', 't', 'a', ':', ' '] := rfl

/-- A line cannot start with both `'event: '` and `'data: '`. -/
lemma startsWith_event_not_data {l : List Char} (h : startsWith l eventTag = true) :
    startsWith l dataTag = false := by
  cases l with
  | nil => rw [eventTag_eq] at h; simp [startsWith] at h
  | cons c cs =>
    rw [eventTag_eq] at h
    rw [dataTag_eq]
    simp only [startsWith, Bool.and_eq_true, decide_eq_true_eq] at h
    simp [startsWith, h.1]

/-- The line loop keeps, for each of the two kinds of tagged line, the value
taken from the last line of that kind (or the initial accumulator when there
is none). -/
lemma scanLines_eq : ∀ (ls : List (List Char)) (ev da : List Char),
    scanLines ls (ev, da)
      = ((match (ls.filter (fun l => startsWith l eventTag)).getLast? with
          | some l => trimChars (l.drop 7)
          | none => ev),
         (match (ls.filter (fun l => startsWith l dataTag)).getLast? with
          | some l => trimChars (l.drop 6)
          | none => da)) := by
  intro ls
  induction ls with
  | nil => intro ev da; rfl
  | cons l ls ih =>
    intro ev da
    by_cases he : startsWith l eventTag
    · have hd : startsWith l dataTag = false := startsWith_event_not_data he
      cases hfe : (ls.filter (fun x => startsWith x eventTag)).getLast? with
      | none => simp [scanLines, he, hd, ih, List.filter_cons, List.getLast?_cons, hfe]
      | some l2 => simp [scanLines, he, hd, ih, List.filter_cons, List.getLast?_cons, hfe]
    · by_cases hd : startsWith l dataTag
      · cases hfd : (ls.filter (fun x => startsWith x dataTag)).getLast? with
        | none => simp [scanLines, he, hd, ih, List.filter_cons, List.getLast?_cons, hfd]
        | some l2 => simp [scanLines, he, hd, ih, List.filter_cons, List.getLast?_cons, hfd]
      · simp [scanLines, he, hd, ih, List.filter_cons]

/-- The per-message body of `streamQuery` agrees with the specification-side
description `specEmit`. -/
lemma emitMessage_eq_specEmit {J : Type} (parse : List Char → Option J) (msg : List Char) :
    emitMessage parse msg = specEmit parse msg := by
  rw [emitMessage, specEmit, specEventName, specDataPayload, scanLines_eq]

/-- Running the loop on a block of chunks followed by further read results
processes the chunks through the buffered stream and continues. -/
lemma runLoop_chunks {J : Type} (parse : List Char → Option J) :
    ∀ (pre : List (List Char)) (buf : List Char) (rest : List ReadEvent),
    runLoop parse buf (pre.map ReadEvent.chunk ++ rest)
      = (runStream parse buf pre).2 ++ runLoop parse (runStream parse buf pre).1 rest := by
  intro pre
  induction pre with
  | nil => intro buf rest; simp [runStream]
  | cons c cs ih =>
    intro buf rest
    simp [runLoop, runStream, ih]

/-- In a list whose last `p`-positive element is `d`, filtering by `p` ends
with `d`. -/
lemma filter_getLast_of_last {α : Type} (p : α → Bool) (pre post : List α) (d : α)
    (hd : p d = true) (hpost : ∀ l ∈ post, p l = false) :
    ((pre ++ d :: post).filter p).getLast? = some d := by
  have hnil : post.filter p = [] := by
    rw [List.filter_eq_nil_iff]
    intro a ha
    simp [hpost a ha]
  rw [List.filter_append, List.filter_cons, if_pos hd, hnil]
  exact List.getLast?_concat _

end SseModel

open SseModel LogModel

/-- C1: for every division of the decoded byte stream into read chunks,
`streamQuery` is equivalent to processing the whole concatenation at once:
the final buffer is the (incomplete) text after the last `'\n\n'` delimiter
of the full stream, and the callback receives exactly the events of each
`'\n\n'`-terminated message, once each and in order — independent of where
the chunk boundaries fall. -/
theorem sse_chunk_boundary_invariant {J : Type} (parse : List Char → Option J)
    (chunks : List (List Char)) :
    streamQuery parse chunks
      = ((splitNN chunks.flatten).getLastD [],
         ((splitNN chunks.flatten).dropLast).flatMap (emitMessage parse)) := by
  have h0 := runStream_flatten parse chunks [] rfl
  simpa [streamQuery] using h0

/-- C2: a message whose data payload fails to parse contributes exactly the
parse-error event `{event: 'error', data: {error: 'Failed to parse SSE
data'}}`, and every message after it is still processed: the emitted events
are those of the messages before, then the error event, then those of the
messages after. -/
theorem sse_parse_failure_continues {J : Type} (parse : List Char → Option J)
    (chunks ms1 ms2 : List (List Char)) (bad tl : List Char)
    (hsplit : splitNN chunks.flatten = ms1 ++ bad :: (ms2 ++ [tl]))
    (htrim : trimChars bad ≠ [])
    (hda : specDataPayload bad ≠ [])
    (hparse : parse (specDataPayload bad) = none) :
    (streamQuery parse chunks).2
      = ms1.flatMap (emitMessage parse)
        ++ SseEvent.parseError :: ms2.flatMap (emitMessage parse) := by
  have h0 := runStream_flatten parse chunks [] rfl
  simp only [List.nil_append] at h0
  rw [streamQuery, h0, hsplit]
  have hdl : (ms1 ++ bad :: (ms2 ++ [tl])).dropLast = ms1 ++ bad :: ms2 := by
    rw [show ms1 ++ bad :: (ms2 ++ [tl]) = (ms1 ++ bad :: ms2) ++ [tl] by simp]
    exact List.dropLast_concat
  have hbad : emitMessage parse bad = [SseEvent.parseError] := by
    rw [emitMessage_eq_specEmit, specEmit, if_neg htrim, if_neg hda, hparse]
  rw [hdl, List.flatMap_append, List.flatMap_cons, hbad]
  simp

/-- Witness for C2: a malformed payload followed by a well-formed message. -/
theorem sse_parse_failure_continues_witness :
    (streamQuery demoParse [("data: x\n\nevent: a\ndata: 1\n\n").toList]).2
      = ([] : List (List Char)).flatMap (emitMessage demoParse)
        ++ SseEvent.parseError
          :: [("event: a\ndata: 1").toList].flatMap (emitMessage demoParse) :=
  sse_parse_failure_continues demoParse [("data: x\n\nevent: a\ndata: 1\n\n").toList]
    [] [("event: a\ndata: 1").toList] ("data: x").toList []
    (by decide) (by decide) (by decide) (by decide)

/-- C3: callback invocations are FIFO: for every cut point `k`, the events of
the first `k` complete messages of the stream precede the events of the
remaining messages. -/
theorem sse_fifo_order {J : Type} (parse : List Char → Option J)
    (chunks : List (List Char)) (k : Nat) :
    (streamQuery parse chunks).2
      = (((splitNN chunks.flatten).dropLast.take k).flatMap (emitMessage parse))
        ++ (((splitNN chunks.flatten).dropLast.drop k).flatMap (emitMessage parse)) := by
  have h0 := runStream_flatten parse chunks [] rfl
  simp only [List.nil_append] at h0
  rw [streamQuery, h0, ← List.flatMap_append, List.take_append_drop]

/-- C4: each complete message is processed by splitting it into
`'\n'`-separated lines, taking the event name from the (last) `'event: '`
line (default `'message'`) and the payload from the (last) `'data: '` line,
JSON-decoding the payload and invoking the callback once; whitespace-only
messages are skipped without a callback. -/
theorem sse_message_parsing {J : Type} (parse : List Char → Option J) (msg : List Char) :
    emitMessage parse msg = specEmit parse msg :=
  emitMessage_eq_specEmit parse msg

/-- C5: when the abort signal fires during a read, the `AbortError` is
swallowed: the loop stops exactly as on a normal end of stream — the same
events, no error event for the cancellation, no rethrow, and no further
reads. -/
theorem sse_abort_silent {J : Type} (parse : List Char → Option J)
    (pre : List (List Char)) (rest : List ReadEvent) :
    runLoop parse [] (pre.map ReadEvent.chunk ++ ReadEvent.abort :: rest)
      = runLoop parse [] (pre.map ReadEvent.chunk ++ [ReadEvent.done]) := by
  rw [runLoop_chunks, runLoop_chunks]
  rfl

/-- C6: when a read reports `done`, the loop exits: the callback is never
invoked again, and no terminal or sentinel event is emitted — the events are
exactly those of the chunks read before. -/
theorem sse_done_stops {J : Type} (parse : List Char → Option J)
    (pre : List (List Char)) (rest : List ReadEvent) :
    runLoop parse [] (pre.map ReadEvent.chunk ++ ReadEvent.done :: rest)
      = (streamQuery parse pre).2 := by
  rw [runLoop_chunks, streamQuery]
  simp [runLoop]

/-- C7: within one message, later tagged lines overwrite earlier ones: if the
last `'data: '` line is `d`, the callback payload is the JSON decode of `d`
alone (earlier data lines are discarded, not concatenated); likewise the
event name comes from the last `'event: '` line. -/
theorem sse_last_data_line_wins {J : Type} (parse : List Char → Option J)
    (msg : List Char) (pre post : List (List Char)) (d : List Char)
    (hlines : List.splitOn '\n' msg = pre ++ d :: post)
    (hd : startsWith d dataTag = true)
    (hpost : ∀ l ∈ post, startsWith l dataTag = false)
    (htm : trimChars msg ≠ [])
    (hne : trimChars (d.drop 6) ≠ []) :
    emitMessage parse msg
      = (match parse (trimChars (d.drop 6)) with
         | some j => [SseEvent.ev (specEventName msg) j]
         | none => [SseEvent.parseError])
    ∧ (∀ (pre2 post2 : List (List Char)) (e : List Char),
        List.splitOn '\n' msg = pre2 ++ e :: post2 →
        startsWith e eventTag = true →
        (∀ l ∈ post2, startsWith l eventTag = false) →
        specEventName msg = trimChars (e.drop 7)) := by
  have hdp : specDataPayload msg = trimChars (d.drop 6) := by
    rw [specDataPayload, hlines,
      filter_getLast_of_last (fun l => startsWith l dataTag) pre post d hd hpost]
  constructor
  · rw [emitMessage_eq_specEmit, specEmit, if_neg htm, hdp, if_neg hne]
  · intro pre2 post2 e hl2 he hpost2
    rw [specEventName, hl2,
      filter_getLast_of_last (fun l => startsWith l eventTag) pre2 post2 e he hpost2]

/-- Witness for C7: two data lines; the payload of the second one (here
unparseable) is the one delivered, and the event name comes from the event
line. -/
theorem sse_last_data_line_wins_witness :
    emitMessage demoParse ("event: a\ndata: 1\ndata: 2").toList = [SseEvent.parseError]
    ∧ specEventName ("event: a\ndata: 1\ndata: 2").toList = ['a'] := by
  have h := sse_last_data_line_wins demoParse ("event: a\ndata: 1\ndata: 2").toList
    [("event: a").toList, ("data: 1").toList] [] ("data: 2").toList
    (by decide) (by decide) (by decide) (by decide) (by decide)
  constructor
  · have h1 := h.1
    rw [show demoParse (trimChars (List.drop 6 ("data: 2").toList)) = none from by decide] at h1
    exact h1
  · have h2 := h.2 [] [("data: 1").toList, ("data: 2").toList] ("event: a").toList
      (by decide) (by decide) (by decide)
    rw [h2]
    decide

/-- C8: a complete message with no `'data: '` line, or whose data payload
trims to the empty string, produces no callback invocation: the message is
skipped silently. -/
theorem sse_empty_data_skipped {J : Type} (parse : List Char → Option J)
    (msg : List Char) (h : specDataPayload msg = []) :
    emitMessage parse msg = [] := by
  rw [emitMessage_eq_specEmit, specEmit]
  by_cases ht : trimChars msg = [] <;> simp [ht, h]

/-- Witness for C8: an event-only message produces no callback. -/
theorem sse_empty_data_skipped_witness :
    emitMessage demoParse ("event: ping").toList = [] :=
  sse_empty_data_skipped demoParse ("event: ping").toList (by decide)

/-- C9: every `appendLog` update appends the new entry at the end and keeps at
most 300 entries — the most recent ones, in order: the result has length
`min (n+1) 300`, equals the 300-entry suffix of `prev ++ [entry]`, and ends
with the new entry. -/
theorem appendLog_bounded (prev : List LogEntry) (e : LogEntry) :
    (appendLogUpdate prev e).length = min (prev.length + 1) 300
    ∧ appendLogUpdate prev e = (prev ++ [e]).drop (prev.length + 1 - 300)
    ∧ (appendLogUpdate prev e).getLast? = some e := by
  unfold LogModel.appendLogUpdate
  by_cases h : (prev ++ [e]).length > 300
  · simp only [if_pos h]
    have hlen : (prev ++ [e]).length = prev.length + 1 := by simp
    rw [hlen] at h ⊢
    refine ⟨?_, rfl, ?_⟩
    · rw [List.length_drop, hlen]
      omega
    · have hle : prev.length + 1 - 300 ≤ prev.length := by omega
      rw [List.drop_append_of_le_length hle]
      exact List.getLast?_concat _
  · simp only [if_neg h]
    have hlen : (prev ++ [e]).length = prev.length + 1 := by simp
    rw [hlen] at h
    refine ⟨?_, ?_, List.getLast?_concat _⟩
    · rw [hlen]; omega
    · have h0 : prev.length + 1 - 300 = 0 := by omega
      rw [h0, List.drop_zero]
